import Mathlib

/-!
Verification development for the `regex_helper` repository
(`src/regex_helper.py`).

The Python library composes regular-expression pattern text and applies the
composed patterns through CPython's `re` module.  We shallowly embed:

* the pattern-text composition functions (`combine_patterns_any`,
  `combine_patterns_all`, `make_optional`, `n_digits`) as functions on
  strings, with Python's `raise TypeError` modelled by `Except`;
* the `re` engine itself as a backtracking matcher `matchEnds` over a small
  regex AST (`Regex`), together with Python's `finditer`/`findall` scanning
  loop (`scanAux`), `re.search` (`searchFrom`) and `re.Pattern.match`
  (`is_match`);
* a relational match semantics `RMatch` against which the engine is proved
  sound and complete.

Character classes use the ASCII readings of Python's `\d`, `\s`, `\S`, `\w`:
this is the fragment exercised by the library and its tests.
-/

namespace RegexHelper

/-- ASCII whitespace, as matched by Python's `\s`:
space, tab, newline, carriage return, vertical tab, form feed. -/
def isSpaceC (c : Char) : Bool :=
  c == ' ' || c == '\t' || c == '\n' || c == '\r' || c == '\x0b' || c == '\x0c'

/-- ASCII digit, as matched by Python's `\d`. -/
def isDigitC (c : Char) : Bool :=
  '0' ≤ c && c ≤ '9'

/-- ASCII word character, as matched by Python's `\w`
(letters, digits and underscore). -/
def isWordChar (c : Char) : Bool :=
  c.isAlphanum || c == '_'

/-- Regex abstract syntax.  This is the compiled form of the pattern texts
the library builds; `re.compile` of a pattern text is embedded as the
corresponding `Regex` value.

* `cls p` is a one-character class (literals, `\d`, `\s`, `\S`, `.`, ...);
* `alt` prefers its left branch, as the backtracking engine does;
* `star lz r` is `r*` (lazy when `lz = true`, else greedy);
* `wordB` is the zero-width boundary `\b`;
* `look r` is the zero-width positive lookahead `(?=r)`;
* `group r` is the capture group `(r)` (the library's patterns use at most
  one group, so a single group-1 slot is tracked). -/
inductive Regex where
  | eps
  | cls (p : Char → Bool)
  | concat (r1 r2 : Regex)
  | alt (r1 r2 : Regex)
  | star (lz : Bool) (r : Regex)
  | wordB
  | look (r : Regex)
  | group (r : Regex)

/-- Is a capture group syntactically present in the pattern?
This decides whether Python's `re.findall` returns whole matches or
group contents. -/
def Regex.hasGroup : Regex → Bool
  | .eps => false
  | .cls _ => false
  | .concat r1 r2 => r1.hasGroup || r2.hasGroup
  | .alt r1 r2 => r1.hasGroup || r2.hasGroup
  | .star _ r => r.hasGroup
  | .wordB => false
  | .look r => r.hasGroup
  | .group _ => true

/-- Span of a capture group: start and end offsets in the subject. -/
abbrev Span := Nat × Nat

/-- One engine outcome: end position of the match attempt together with the
current group-1 span, if the group has matched. -/
abbrev MOut := Nat × Option Span

/-- Is there a word character at offset `i` of the subject? -/
def wordAt (full : List Char) (i : Nat) : Bool :=
  if i < full.length then isWordChar (full.getD i ' ') else false

/-- Python's `\b`: the two sides of position `pos` disagree about being a
word character (positions outside the subject count as non-word). -/
def atBoundary (full : List Char) (pos : Nat) : Bool :=
  (if pos = 0 then false else wordAt full (pos - 1)) != wordAt full pos

/-- Backtracking loop for `r*`.  Python's engine never repeats an iteration
that consumed nothing (it breaks out of empty repetitions), so each
iteration strictly advances and fuel `full.length + 1` is always enough.
Greedy stars list longer attempts first, lazy stars list the empty attempt
first. -/
def starLoop (mr : Nat → Option Span → List MOut) (lz : Bool) :
    Nat → Nat → Option Span → List MOut
  | 0, pos, g => [(pos, g)]
  | f + 1, pos, g =>
    let step :=
      ((mr pos g).filter (fun o => decide (pos < o.1))).flatMap
        (fun o => starLoop mr lz f o.1 o.2)
    if lz then (pos, g) :: step else step ++ [(pos, g)]

/-- The backtracking engine: all ways `r` can match starting at `pos` in
`full`, as end positions (with group-1 spans), in the engine's preference
order.  Python's `re` takes the first outcome. -/
def matchEnds : Regex → List Char → Nat → Option Span → List MOut
  | .eps, _, pos, g => [(pos, g)]
  | .cls p, full, pos, g =>
    if pos < full.length ∧ p (full.getD pos ' ') = true then [(pos + 1, g)] else []
  | .concat r1 r2, full, pos, g =>
    (matchEnds r1 full pos g).flatMap (fun o => matchEnds r2 full o.1 o.2)
  | .alt r1 r2, full, pos, g =>
    matchEnds r1 full pos g ++ matchEnds r2 full pos g
  | .star lz r, full, pos, g =>
    starLoop (fun p gg => matchEnds r full p gg) lz (full.length + 1) pos g
  | .wordB, full, pos, g =>
    if atBoundary full pos = true then [(pos, g)] else []
  | .look r, full, pos, g =>
    if (matchEnds r full pos g).isEmpty then [] else [(pos, g)]
  | .group r, full, pos, g =>
    (matchEnds r full pos g).map (fun o => (o.1, some (pos, o.1)))

/-- Python `re.search` scanning: try each start position from `pos` up to
and including `full.length`, returning the first position where the engine
succeeds, with the engine's preferred outcome there. -/
def searchAux (r : Regex) (full : List Char) :
    Nat → Nat → Option (Nat × Nat × Option Span)
  | 0, _ => none
  | f + 1, pos =>
    if pos ≤ full.length then
      match matchEnds r full pos none with
      | [] => searchAux r full f (pos + 1)
      | o :: _ => some (pos, o.1, o.2)
    else none

/-- Python `re.search` from position `pos`. -/
def searchFrom (r : Regex) (full : List Char) (pos : Nat) :
    Option (Nat × Nat × Option Span) :=
  searchAux r full (full.length + 1 - pos) pos

/-- Python `re.finditer` scanning loop: repeatedly search, then resume at
the end of the found match, stepping one further after an empty match. -/
def scanAux (r : Regex) (full : List Char) :
    Nat → Nat → List (Nat × Nat × Option Span)
  | 0, _ => []
  | f + 1, pos =>
    match searchFrom r full pos with
    | none => []
    | some (s, e, g) => (s, e, g) :: scanAux r full f (if e = s then e + 1 else e)

/-- All matches of `r` in `full`, as `(start, end, group-1 span)` triples,
in left-to-right order: Python's `re.finditer`. -/
def finditer (r : Regex) (full : List Char) : List (Nat × Nat × Option Span) :=
  scanAux r full (full.length + 2) 0

/-- The substring of the subject between offsets `a` and `b`. -/
def extract (full : List Char) (a b : Nat) : List Char :=
  (full.drop a).take (b - a)

/-- Embeds `regex_helper.count_matches` (line 154):
`sum(1 for _ in re.finditer(pattern, text))`. -/
def count_matches (text : String) (r : Regex) : Nat :=
  (finditer r text.data).length

/-- Embeds Python `re.findall`: one string per match, the group-1 content
when a group is present (empty string when the group did not participate),
the whole match otherwise.  (For patterns with two or more groups CPython
returns tuples; the library's patterns have at most one group.) -/
def findall (text : String) (r : Regex) : List String :=
  (finditer r text.data).map (fun t =>
    if r.hasGroup then
      match t.2.2 with
      | some ab => (extract text.data ab.1 ab.2).asString
      | none => ""
    else (extract text.data t.1 t.2.1).asString)

/-- Embeds `regex_helper.get_matches` (line 159): `re.findall(pattern, text)`. -/
def get_matches (text : String) (r : Regex) : List String :=
  findall text r

/-- Embeds `regex_helper.contains_match` (line 164):
`re.search(pattern, text) is not None`. -/
def contains_match (text : String) (r : Regex) : Bool :=
  (searchFrom r text.data 0).isSome

/-- Embeds `regex_helper.is_match` (line 149):
`pattern.match(text) is not None` — `re.Pattern.match` attempts the match
only at position 0. -/
def is_match (text : String) (r : Regex) : Bool :=
  !(matchEnds r text.data 0 none).isEmpty

/-! ### Compiled forms of the fragments the library splices together -/

/-- A literal character. -/
def litC (c : Char) : Regex := .cls (fun x => x == c)

/-- A literal string, as the concatenation of its characters. -/
def strR (s : String) : Regex :=
  s.data.foldr (fun c acc => .concat (litC c) acc) .eps

/-- Greedy `r+`, i.e. `r` followed by greedy `r*`. -/
def plusR (r : Regex) : Regex := .concat r (.star false r)

/-- The class `\d`. -/
def digitC : Regex := .cls isDigitC

/-- The class `\s`. -/
def spaceC : Regex := .cls isSpaceC

/-- The class `\S`. -/
def nonspaceC : Regex := .cls (fun c => !isSpaceC c)

/-- The class `.` under `re.DOTALL`: any character, including newline. -/
def anyC : Regex := .cls (fun _ => true)

/-- Greedy bounded repetition `r{0,k}`, unrolled in the engine's preference
order: take another iteration if possible, otherwise stop. -/
def repUpTo (r : Regex) : Nat → Regex
  | 0 => .eps
  | k + 1 => .alt (.concat r (repUpTo r k)) .eps

/-- Exact repetition `r{k}`. -/
def repExact (r : Regex) : Nat → Regex
  | 0 => .eps
  | k + 1 => .concat r (repExact r k)

/-! ### words-before and extract-between (lines 58-146) -/

/-- Right-nested alternation chain `x | a₁ | ... | a_k`.  Used to model
raw splicing of a caller's pattern text whose top level is an alternation:
the parse of the text `T₁|A₂|...|A_k` is
`altChain (parse T₁) [parse A₂, ..., parse A_k]`. -/
def altChain (x : Regex) : List Regex → Regex
  | [] => x
  | a :: rest => .alt x (altChain a rest)

/-- The compiled form of the pattern text `get_words_before_pattern` builds
(lines 93-96).  The source splices the caller's pattern text *raw*:
`"\b(\S+(?:\s+\S+){0," + str(n-1) + "}\s+" + P + ")"` with
`include_match`, else `"\b(\S+(?:\s+\S+){0," + str(n-1) + "})(?=\s+" + P
+ ")"`.  The caller's pattern text parses as top-level alternatives
`A₁|A₂|...|A_k` (`k ≥ 1`), given here as `p1` (first alternative) and
`ps` (the rest).  Because the splice is textual, only the first
alternative glues onto the token prefix; the remaining alternatives
escape it.  With `include_match` the spliced text compiles to
`\b( \S+(?:\s+\S+){0,n-1}\s+A₁ | A₂ | ... | A_k )` — the later
alternatives live inside the group but carry no token prefix — and in
the lookahead variant the alternation stays confined to the lookahead:
`\b(\S+(?:\s+\S+){0,n-1})(?=\s+A₁|A₂|...|A_k)`.
The embedding is faithful for `n ≥ 1` (for `n = 0` Python emits the
malformed quantifier text `{0,-1}`, which the engine then reads as
literal characters) and for caller patterns whose top-level alternatives
are self-contained concatenations. -/
def wordsBeforeRegex (p1 : Regex) (ps : List Regex) (n : Nat)
    (include_match : Bool) : Regex :=
  let tok := plusR nonspaceC
  let blk := Regex.concat (plusR spaceC) tok
  if include_match then
    .concat .wordB
      (.group (altChain (.concat tok (.concat (repUpTo blk (n - 1))
        (.concat (plusR spaceC) p1))) ps))
  else
    .concat .wordB
      (.concat (.group (.concat tok (repUpTo blk (n - 1))))
        (.look (altChain (.concat (plusR spaceC) p1) ps)))

/-- Embeds `regex_helper.get_words_before_pattern` (line 58):
`re.findall(n_words_pattern, text)` on the pattern above.  The caller's
pattern is passed as its top-level alternation decomposition `p1`, `ps`
(a pattern with no top-level `|` has `ps = []`). -/
def get_words_before_pattern (text : String) (p1 : Regex) (ps : List Regex)
    (n : Nat) (include_match : Bool) : List String :=
  findall text (wordsBeforeRegex p1 ps n include_match)

/-- The compiled form of the pattern text `extract_between_patterns` builds
(lines 139-142): `start(.*?end)` when `include_matches`, else
`start(.*?)end`; compiled with `re.DOTALL`, so `.` matches newlines too. -/
def betweenRegex (startP endP : Regex) (include_matches : Bool) : Regex :=
  if include_matches then
    .concat startP (.group (.concat (.star true anyC) endP))
  else
    .concat startP (.concat (.group (.star true anyC)) endP)

/-- Embeds `regex_helper.extract_between_patterns` (line 101):
`re.findall(pattern, text, re.DOTALL)` on the pattern above. -/
def extract_between_patterns (text : String) (startP endP : Regex)
    (include_matches : Bool) : List String :=
  findall text (betweenRegex startP endP include_matches)

/-! ### Pattern creation functions (lines 174-439)

These operate on pattern text.  A Python argument that may be an
`re.Pattern`, a `str`, or anything else is modelled by `PatternInput`;
`raise TypeError` is modelled by `Except.error`. -/

/-- A duck-typed "pattern or string" argument.  `other` carries the type
name used in the `TypeError` message. -/
inductive PatternInput where
  | compiled (text : String)
  | raw (text : String)
  | other (typename : String)
deriving DecidableEq

/-- The pattern text of an input (`pattern.pattern` for compiled patterns,
the string itself otherwise); `""` for invalid inputs, which the library
functions reject before using it. -/
def PatternInput.textOf : PatternInput → String
  | .compiled t => t
  | .raw t => t
  | .other _ => ""

/-- The result of `re.compile(out_str)` or
`re.compile(out_str, re.IGNORECASE)`: the pattern text together with the
case-insensitivity flag. -/
structure CompiledPattern where
  text : String
  ignorecase : Bool
deriving DecidableEq

/-- The loop of `combine_patterns_any` (lines 202-210): normalize each
input to text, wrapping it in an inline `(?i:...)` scope when
`case_sensitive` is false; raise `TypeError` on anything else. -/
def normalizeAny (case_sensitive : Bool) :
    List PatternInput → Except String (List String)
  | [] => .ok []
  | .compiled t :: rest =>
    (normalizeAny case_sensitive rest).map
      (fun ts => (if case_sensitive then t else "(?i:" ++ t ++ ")") :: ts)
  | .raw t :: rest =>
    (normalizeAny case_sensitive rest).map
      (fun ts => (if case_sensitive then t else "(?i:" ++ t ++ ")") :: ts)
  | .other tn :: _ =>
    .error ("All inputs to be re.Pattern or str, not " ++ tn)

/-- Embeds `regex_helper.combine_patterns_any` (line 174): join the
normalized texts with `|`, wrap the join in `(?:...)`, add `\b` on both
sides when `use_word_boundaries`, and compile (with `re.IGNORECASE` when
not `case_sensitive`). -/
def combine_patterns_any (patterns : List PatternInput)
    (case_sensitive use_word_boundaries : Bool) :
    Except String CompiledPattern :=
  (normalizeAny case_sensitive patterns).map (fun patterns_str =>
    let combined_str := String.intercalate "|" patterns_str
    let out_str :=
      if use_word_boundaries then "\\b(?:" ++ combined_str ++ ")\\b"
      else "(?:" ++ combined_str ++ ")"
    ⟨out_str, !case_sensitive⟩)

/-- The loop of `combine_patterns_all` (lines 255-263): collect each
input's text, raising `TypeError` on anything else. -/
def collectAll : List PatternInput → Except String (List String)
  | [] => .ok []
  | .compiled t :: rest => (collectAll rest).map (fun ts => t :: ts)
  | .raw t :: rest => (collectAll rest).map (fun ts => t :: ts)
  | .other tn :: _ =>
    .error ("All inputs to be re.Pattern or str, not " ++ tn)

/-- Embeds `regex_helper.combine_patterns_all` (line 225): join the texts
with the delimiter (`None` means `''`) and compile. -/
def combine_patterns_all (patterns : List PatternInput)
    (delimiter : Option String) (case_sensitive : Bool) :
    Except String CompiledPattern :=
  let d := delimiter.getD ""
  (collectAll patterns).map (fun patterns_str =>
    ⟨String.intercalate d patterns_str, !case_sensitive⟩)

/-- Embeds `regex_helper.n_digits` (line 303): the f-string
`f"\\d{{{n}}}"`, i.e. the text `\d{n}` for any integer `n`.
The function is total: no check on `n` is performed. -/
def n_digits (n : Int) : String :=
  "\\d\x7b" ++ toString n ++ "\x7d"

/-- The compiled form of `n_digits n` for `n ≥ 0`: `\d{n}` matches exactly
`n` digit characters. -/
def nDigitsR (n : Nat) : Regex := repExact digitC n

/-- Embeds `regex_helper.make_optional` (line 411): take the input's
pattern text, wrap it as `(?:X)?`, and compile; `TypeError` on anything
that is not a pattern or string. -/
def make_optional (pattern : PatternInput) : Except String CompiledPattern :=
  match pattern with
  | .compiled t => .ok ⟨"(?:" ++ t ++ ")?", false⟩
  | .raw t => .ok ⟨"(?:" ++ t ++ ")?", false⟩
  | .other tn =>
    .error ("Input must be re.Pattern or str, not " ++ tn)

/-- The compiled form of the text `(?:X)?` built by `make_optional`, at the
AST level: a greedy option, preferring to match `X`. -/
def make_optional_ast (r : Regex) : Regex := .alt r .eps

/-! ### Multiprocessing batch runner (lines 445-473) -/

/-- Result of `contains_match_multi`, tagged with the branch that produced
it: the sequential list comprehension, or the `multiprocessing.Pool`
dispatch. -/
inductive MultiResult where
  | sequential (results : List Bool)
  | parallel (results : List Bool)
deriving DecidableEq

/-- Models `multiprocessing.Pool.starmap`: applies the function to each
argument tuple and returns the results in the order of the argument list
(order preservation is part of `starmap`'s contract). -/
def pool_starmap (f : String → Bool) (texts : List String) : List Bool :=
  texts.map f

/-- Embeds `regex_helper.contains_match_multi` (line 445), keeping the two
return sites distinct.  `cpu_count` stands for `multiprocessing.cpu_count()`,
used when `n_workers` is `None`. -/
def contains_match_multi_impl (texts : List String) (p : Regex)
    (n_workers : Option Nat) (cpu_count : Nat) : MultiResult :=
  let nw := n_workers.getD cpu_count
  if texts.length < nw then
    .sequential (texts.map (fun t => contains_match t p))
  else
    .parallel (pool_starmap (fun t => contains_match t p) texts)

/-- The value `contains_match_multi` returns. -/
def contains_match_multi (texts : List String) (p : Regex)
    (n_workers : Option Nat) (cpu_count : Nat) : List Bool :=
  match contains_match_multi_impl texts p n_workers cpu_count with
  | .sequential rs => rs
  | .parallel rs => rs

/-! ### Relational match semantics

`RMatch full r s e` says the pattern `r` can match the slice of `full`
from offset `s` to offset `e`.  Repetition steps are required to consume at
least one character, exactly as the backtracking engine behaves (Python's
engine breaks out of repetition iterations that matched nothing), so the
relation and the engine agree exactly. -/
inductive RMatch (full : List Char) : Regex → Nat → Nat → Prop where
  | eps (s : Nat) : RMatch full .eps s s
  | cls {p : Char → Bool} (s : Nat) (h : s < full.length)
      (hp : p (full.getD s ' ') = true) : RMatch full (.cls p) s (s + 1)
  | concat {r1 r2 : Regex} {s m e : Nat} :
      RMatch full r1 s m → RMatch full r2 m e → RMatch full (.concat r1 r2) s e
  | altL {r1 r2 : Regex} {s e : Nat} :
      RMatch full r1 s e → RMatch full (.alt r1 r2) s e
  | altR {r1 r2 : Regex} {s e : Nat} :
      RMatch full r2 s e → RMatch full (.alt r1 r2) s e
  | wordB (s : Nat) (h : atBoundary full s = true) : RMatch full .wordB s s
  | look {r : Regex} {s e : Nat} :
      RMatch full r s e → RMatch full (.look r) s s
  | group {r : Regex} {s e : Nat} :
      RMatch full r s e → RMatch full (.group r) s e
  | starNil (lz : Bool) (r : Regex) (s : Nat) : RMatch full (.star lz r) s s
  | starCons {lz : Bool} {r : Regex} {s m e : Nat} :
      RMatch full r s m → s < m → RMatch full (.star lz r) m e →
      RMatch full (.star lz r) s e

/-- The slice `[a, b)` of the subject is nonempty, in range, and each of
its characters satisfies `q`. -/
def CharRun (q : Char → Bool) (full : List Char) (a b : Nat) : Prop :=
  a < b ∧ b ≤ full.length ∧ ∀ i, a ≤ i → i < b → q (full.getD i ' ') = true

/-- A nonempty run of non-whitespace characters: one whitespace-delimited
token (or a suffix of one, when it starts mid-token). -/
def NonspaceRun (full : List Char) (a b : Nat) : Prop :=
  CharRun (fun c => !isSpaceC c) full a b

/-- A nonempty run of whitespace characters. -/
def SpaceRun (full : List Char) (a b : Nat) : Prop :=
  CharRun isSpaceC full a b

/-- `PreTokens full a b j`: the slice `[a, b)` consists of exactly `j`
repetitions of (whitespace run, then token run). -/
inductive PreTokens (full : List Char) : Nat → Nat → Nat → Prop where
  | nil (a : Nat) : PreTokens full a a 0
  | cons {a x y b j : Nat} : SpaceRun full a x → NonspaceRun full x y →
      PreTokens full y b j → PreTokens full a b (j + 1)

/-- `RChain full r a b j`: `j` consecutive matches of `r` carry position
`a` to position `b`. -/
inductive RChain (full : List Char) (r : Regex) : Nat → Nat → Nat → Prop where
  | nil (a : Nat) : RChain full r a a 0
  | cons {a m b j : Nat} : RMatch full r a m → RChain full r m b j →
      RChain full r a b (j + 1)

/-- Is the input a pattern-or-string (as opposed to the `other` arm that
makes the library raise `TypeError`)? -/
def PatternInput.isPat : PatternInput → Bool
  | .compiled _ => true
  | .raw _ => true
  | .other _ => false

/-! ## Engine correctness -/

theorem RMatch.le_end {full : List Char} {r : Regex} {s e : Nat}
    (h : RMatch full r s e) : s ≤ e := by
  induction h <;> omega

theorem RMatch.end_le {full : List Char} {r : Regex} {s e : Nat}
    (h : RMatch full r s e) : s ≤ full.length → e ≤ full.length := by
  induction h <;> omega

theorem starLoop_sound {full : List Char} {r : Regex} {lz : Bool}
    (hmr : ∀ (pos : Nat) (g : Option Span) (e : Nat) (g' : Option Span),
      (e, g') ∈ matchEnds r full pos g → RMatch full r pos e) :
    ∀ (f pos : Nat) (g : Option Span) (e : Nat) (g' : Option Span),
      (e, g') ∈ starLoop (fun po gg => matchEnds r full po gg) lz f pos g →
      RMatch full (.star lz r) pos e := by
  intro f
  induction f with
  | zero =>
    intro pos g e g' h
    simp only [starLoop, List.mem_singleton, Prod.mk.injEq] at h
    rw [h.1]
    exact RMatch.starNil lz r pos
  | succ f ih =>
    intro pos g e g' h
    have hsplit : ((e, g') = (pos, g)) ∨
        (e, g') ∈ ((matchEnds r full pos g).filter
            (fun o => decide (pos < o.1))).flatMap
          (fun o => starLoop (fun po gg => matchEnds r full po gg) lz f o.1 o.2) := by
      cases lz <;> simp only [starLoop] at h
      · rcases List.mem_append.mp h with h1 | h1
        · exact Or.inr h1
        · exact Or.inl (List.mem_singleton.mp h1)
      · rcases List.mem_cons.mp h with h1 | h1
        · exact Or.inl h1
        · exact Or.inr h1
    rcases hsplit with h1 | h2
    · have : e = pos := congrArg Prod.fst h1
      rw [this]
      exact RMatch.starNil lz r pos
    · obtain ⟨o, ho, hrec⟩ := List.mem_flatMap.mp h2
      obtain ⟨e1, g1⟩ := o
      obtain ⟨hom, hlt⟩ := List.mem_filter.mp ho
      exact RMatch.starCons (hmr pos g e1 g1 hom) (of_decide_eq_true hlt)
        (ih e1 g1 e g' hrec)

theorem matchEnds_sound :
    ∀ (r : Regex) (full : List Char) (pos : Nat) (g : Option Span)
      (e : Nat) (g' : Option Span),
      (e, g') ∈ matchEnds r full pos g → RMatch full r pos e := by
  intro r
  induction r with
  | eps =>
    intro full pos g e g' h
    simp only [matchEnds, List.mem_singleton, Prod.mk.injEq] at h
    rw [h.1]
    exact RMatch.eps pos
  | cls p =>
    intro full pos g e g' h
    simp only [matchEnds] at h
    split at h
    · next hc =>
      simp only [List.mem_singleton, Prod.mk.injEq] at h
      rw [h.1]
      exact RMatch.cls pos hc.1 hc.2
    · simp at h
  | concat r1 r2 ih1 ih2 =>
    intro full pos g e g' h
    simp only [matchEnds] at h
    obtain ⟨o, ho, h2⟩ := List.mem_flatMap.mp h
    obtain ⟨m, gm⟩ := o
    exact RMatch.concat (ih1 full pos g m gm ho) (ih2 full m gm e g' h2)
  | alt r1 r2 ih1 ih2 =>
    intro full pos g e g' h
    simp only [matchEnds] at h
    rcases List.mem_append.mp h with h1 | h1
    · exact RMatch.altL (ih1 full pos g e g' h1)
    · exact RMatch.altR (ih2 full pos g e g' h1)
  | star lz r ih =>
    intro full pos g e g' h
    simp only [matchEnds] at h
    exact starLoop_sound (fun po gg ee gg' hm => ih full po gg ee gg' hm)
      (full.length + 1) pos g e g' h
  | wordB =>
    intro full pos g e g' h
    simp only [matchEnds] at h
    split at h
    · next hb =>
      simp only [List.mem_singleton, Prod.mk.injEq] at h
      rw [h.1]
      exact RMatch.wordB pos hb
    · simp at h
  | look r ih =>
    intro full pos g e g' h
    simp only [matchEnds] at h
    split at h
    · simp at h
    · next hne =>
      simp only [List.mem_singleton, Prod.mk.injEq] at h
      have hnil : matchEnds r full pos g ≠ [] := by
        intro hx
        exact hne (by rw [hx]; rfl)
      obtain ⟨o, ho⟩ := List.exists_mem_of_ne_nil _ hnil
      obtain ⟨e1, g1⟩ := o
      rw [h.1]
      exact RMatch.look (ih full pos g e1 g1 ho)
  | group r ih =>
    intro full pos g e g' h
    simp only [matchEnds, List.mem_map] at h
    obtain ⟨o, ho, h2⟩ := h
    obtain ⟨e1, g1⟩ := o
    have he : e1 = e := by
      have := congrArg Prod.fst h2
      simpa using this
    rw [← he]
    exact RMatch.group (ih full pos g e1 g1 ho)

theorem starLoop_complete {full : List Char} {r : Regex} {lz : Bool}
    (hmrc : ∀ (pos e : Nat), pos ≤ full.length → RMatch full r pos e →
      ∀ g, ∃ g', (e, g') ∈ matchEnds r full pos g) :
    ∀ (f pos e : Nat) (g : Option Span), pos ≤ full.length →
      RMatch full (.star lz r) pos e → e - pos < f →
      ∃ g', (e, g') ∈ starLoop (fun po gg => matchEnds r full po gg) lz f pos g := by
  intro f
  induction f with
  | zero =>
    intro pos e g _ hm hf
    omega
  | succ f ih =>
    intro pos e g hpos hm hf
    cases hm with
    | starNil =>
      refine ⟨g, ?_⟩
      cases lz <;> simp only [starLoop]
      · exact List.mem_append_right _ (List.mem_singleton.mpr rfl)
      · exact List.mem_cons_self _ _
    | starCons hr hlt hrest =>
      rename_i m
      obtain ⟨g1, hg1⟩ := hmrc pos m hpos hr g
      have hmle : m ≤ full.length := hr.end_le hpos
      have hme : m ≤ e := hrest.le_end
      obtain ⟨g2, hg2⟩ := ih m e g1 hmle hrest (by omega)
      refine ⟨g2, ?_⟩
      have hstep : (e, g2) ∈ ((matchEnds r full pos g).filter
          (fun o => decide (pos < o.1))).flatMap
            (fun o => starLoop (fun po gg => matchEnds r full po gg) lz f o.1 o.2) :=
        List.mem_flatMap.mpr ⟨(m, g1),
          List.mem_filter.mpr ⟨hg1, decide_eq_true hlt⟩, hg2⟩
      cases lz <;> simp only [starLoop]
      · exact List.mem_append_left _ hstep
      · exact List.mem_cons_of_mem _ hstep

theorem matchEnds_complete :
    ∀ (r : Regex) (full : List Char) (pos e : Nat), pos ≤ full.length →
      RMatch full r pos e → ∀ g, ∃ g', (e, g') ∈ matchEnds r full pos g := by
  intro r
  induction r with
  | eps =>
    intro full pos e _ hm g
    cases hm
    exact ⟨g, List.mem_singleton.mpr rfl⟩
  | cls p =>
    intro full pos e _ hm g
    cases hm with
    | cls _ hlt hp =>
      refine ⟨g, ?_⟩
      simp only [matchEnds, if_pos (And.intro hlt hp)]
      exact List.mem_singleton.mpr rfl
  | concat r1 r2 ih1 ih2 =>
    intro full pos e hpos hm g
    cases hm with
    | concat hr1 hr2 =>
      rename_i m
      obtain ⟨g1, hg1⟩ := ih1 full pos m hpos hr1 g
      obtain ⟨g2, hg2⟩ := ih2 full m e (hr1.end_le hpos) hr2 g1
      exact ⟨g2, List.mem_flatMap.mpr ⟨(m, g1), hg1, hg2⟩⟩
  | alt r1 r2 ih1 ih2 =>
    intro full pos e hpos hm g
    cases hm with
    | altL h1 =>
      obtain ⟨g1, hg1⟩ := ih1 full pos e hpos h1 g
      exact ⟨g1, List.mem_append_left _ hg1⟩
    | altR h1 =>
      obtain ⟨g1, hg1⟩ := ih2 full pos e hpos h1 g
      exact ⟨g1, List.mem_append_right _ hg1⟩
  | star lz r ih =>
    intro full pos e hpos hm g
    have he : e ≤ full.length := hm.end_le hpos
    exact starLoop_complete (fun po ee hp hmm gg => ih full po ee hp hmm gg)
      (full.length + 1) pos e g hpos hm (by omega)
  | wordB =>
    intro full pos e _ hm g
    cases hm with
    | wordB _ hb =>
      refine ⟨g, ?_⟩
      simp only [matchEnds, if_pos hb]
      exact List.mem_singleton.mpr rfl
  | look r ih =>
    intro full pos e hpos hm g
    cases hm with
    | look hinner =>
      rename_i e1
      obtain ⟨g1, hg1⟩ := ih full pos e1 hpos hinner g
      refine ⟨g, ?_⟩
      have hne : (matchEnds r full pos g).isEmpty ≠ true := by
        intro hx
        rw [List.isEmpty_iff.mp hx] at hg1
        simp at hg1
      simp only [matchEnds, if_neg hne]
      exact List.mem_singleton.mpr rfl
  | group r ih =>
    intro full pos e hpos hm g
    cases hm with
    | group hr =>
      obtain ⟨g1, hg1⟩ := ih full pos e hpos hr g
      exact ⟨some (pos, e), List.mem_map.mpr ⟨(e, g1), hg1, rfl⟩⟩

theorem matchEnds_ne_nil_iff {r : Regex} {full : List Char} {pos : Nat}
    (hpos : pos ≤ full.length) (g : Option Span) :
    matchEnds r full pos g ≠ [] ↔ ∃ e, RMatch full r pos e := by
  constructor
  · intro hne
    obtain ⟨o, ho⟩ := List.exists_mem_of_ne_nil _ hne
    obtain ⟨e, g1⟩ := o
    exact ⟨e, matchEnds_sound r full pos g e g1 ho⟩
  · rintro ⟨e, hm⟩
    obtain ⟨g1, hg1⟩ := matchEnds_complete r full pos e hpos hm g
    intro hx
    rw [hx] at hg1
    simp at hg1

theorem searchAux_sound {r : Regex} {full : List Char} :
    ∀ (f pos s e : Nat) (g : Option Span),
      searchAux r full f pos = some (s, e, g) →
      pos ≤ s ∧ s ≤ full.length ∧ (e, g) ∈ matchEnds r full s none := by
  intro f
  induction f with
  | zero =>
    intro pos s e g h
    simp [searchAux] at h
  | succ f ih =>
    intro pos s e g h
    simp only [searchAux] at h
    split at h
    · next hpos =>
      cases hme : matchEnds r full pos none with
      | nil =>
        rw [hme] at h
        obtain ⟨h1, h2, h3⟩ := ih (pos + 1) s e g h
        exact ⟨by omega, h2, h3⟩
      | cons o os =>
        rw [hme] at h
        have hs : pos = s ∧ o.1 = e ∧ o.2 = g := by
          injection h with h
          injection h with h1 h2
          injection h2 with h2 h3
          exact ⟨h1, h2, h3⟩
        obtain ⟨rfl, he, hg⟩ := hs
        rw [← he, ← hg]
        refine ⟨Nat.le_refl _, hpos, ?_⟩
        rw [hme]
        exact List.mem_cons_self _ _
    · exact absurd h (by simp)

theorem searchAux_isSome {r : Regex} {full : List Char} :
    ∀ (f pos s1 : Nat), pos ≤ s1 → s1 ≤ full.length → s1 < pos + f →
      matchEnds r full s1 none ≠ [] →
      (searchAux r full f pos).isSome = true := by
  intro f
  induction f with
  | zero =>
    intro pos s1 h1 _ h3
    omega
  | succ f ih =>
    intro pos s1 h1 h2 h3 hne
    simp only [searchAux]
    rw [if_pos (by omega)]
    cases hme : matchEnds r full pos none with
    | nil =>
      have hps : pos ≠ s1 := by
        intro hx
        rw [hx] at hme
        exact hne hme
      exact ih (pos + 1) s1 (by omega) h2 (by omega) hne
    | cons o os => rfl

theorem contains_match_iff (text : String) (r : Regex) :
    contains_match text r = true ↔
      ∃ s e, s ≤ text.data.length ∧ RMatch text.data r s e := by
  constructor
  · intro h
    obtain ⟨res, hres⟩ := Option.isSome_iff_exists.mp h
    obtain ⟨s, e, g⟩ := res
    obtain ⟨_, h2, h3⟩ := searchAux_sound (text.data.length + 1 - 0) 0 s e g hres
    exact ⟨s, e, h2, matchEnds_sound r text.data s none e g h3⟩
  · rintro ⟨s, e, hs, hm⟩
    have hne : matchEnds r text.data s none ≠ [] :=
      (matchEnds_ne_nil_iff hs none).mpr ⟨e, hm⟩
    exact searchAux_isSome (text.data.length + 1 - 0) 0 s (Nat.zero_le _) hs
      (by omega) hne

theorem is_match_iff (text : String) (r : Regex) :
    is_match text r = true ↔
      ∃ e, e ≤ text.data.length ∧ RMatch text.data r 0 e := by
  constructor
  · intro h
    have hne : matchEnds r text.data 0 none ≠ [] := by
      intro hx
      simp [is_match, hx] at h
    obtain ⟨e, hm⟩ := (matchEnds_ne_nil_iff (Nat.zero_le _) none).mp hne
    exact ⟨e, hm.end_le (Nat.zero_le _), hm⟩
  · rintro ⟨e, _, hm⟩
    have hne : matchEnds r text.data 0 none ≠ [] :=
      (matchEnds_ne_nil_iff (Nat.zero_le _) none).mpr ⟨e, hm⟩
    simpa [is_match, List.isEmpty_iff] using hne

theorem scanAux_mem {r : Regex} {full : List Char} :
    ∀ (f pos : Nat) (t : Nat × Nat × Option Span), t ∈ scanAux r full f pos →
      t.1 ≤ full.length ∧ (t.2.1, t.2.2) ∈ matchEnds r full t.1 none := by
  intro f
  induction f with
  | zero =>
    intro pos t h
    simp [scanAux] at h
  | succ f ih =>
    intro pos t h
    simp only [scanAux] at h
    cases hse : searchFrom r full pos with
    | none =>
      rw [hse] at h
      simp at h
    | some res =>
      obtain ⟨s, e, g⟩ := res
      rw [hse] at h
      rcases List.mem_cons.mp h with h1 | h1
      · obtain ⟨_, h2, h3⟩ := searchAux_sound (full.length + 1 - pos) pos s e g hse
        rw [h1]
        exact ⟨h2, h3⟩
      · exact ih (if e = s then e + 1 else e) t h1

theorem finditer_mem {r : Regex} {full : List Char} {t : Nat × Nat × Option Span}
    (h : t ∈ finditer r full) :
    t.1 ≤ full.length ∧ (t.2.1, t.2.2) ∈ matchEnds r full t.1 none :=
  scanAux_mem (full.length + 2) 0 t h

/-! ## Shape lemmas for character classes and repetitions -/

theorem star_cls_chars {full : List Char} {lz : Bool} {q : Char → Bool} :
    ∀ (k a b : Nat), b - a ≤ k → RMatch full (.star lz (.cls q)) a b →
      a ≤ b ∧ ∀ i, a ≤ i → i < b → q (full.getD i ' ') = true := by
  intro k
  induction k with
  | zero =>
    intro a b hk hm
    cases hm with
    | starNil => exact ⟨Nat.le_refl _, fun i h1 h2 => absurd h2 (by omega)⟩
    | starCons hr hlt hrest =>
      have := hrest.le_end
      cases hr
      omega
  | succ k ih =>
    intro a b hk hm
    cases hm with
    | starNil => exact ⟨Nat.le_refl _, fun i h1 h2 => absurd h2 (by omega)⟩
    | starCons hr hlt hrest =>
      cases hr with
      | cls _ hlen hp =>
        have hab : a + 1 ≤ b := hrest.le_end
        obtain ⟨h1, h2⟩ := ih (a + 1) b (by omega) hrest
        refine ⟨by omega, fun i hi1 hi2 => ?_⟩
        rcases Nat.eq_or_lt_of_le hi1 with hia | hia
        · rw [← hia]
          exact hp
        · exact h2 i hia hi2

theorem plus_cls_run {full : List Char} {q : Char → Bool} {a b : Nat}
    (h : RMatch full (plusR (.cls q)) a b) : CharRun q full a b := by
  cases h with
  | concat hr1 hr2 =>
    cases hr1 with
    | cls _ hlen hp =>
      have hab : a + 1 ≤ b := hr2.le_end
      obtain ⟨_, hchars⟩ := star_cls_chars (b - (a + 1)) (a + 1) b (Nat.le_refl _) hr2
      refine ⟨by omega, hr2.end_le (by omega), fun i hi1 hi2 => ?_⟩
      rcases Nat.eq_or_lt_of_le hi1 with hia | hia
      · rw [← hia]
        exact hp
      · exact hchars i hia hi2

theorem repUpTo_inv {full : List Char} {r : Regex} :
    ∀ (k a b : Nat), RMatch full (repUpTo r k) a b →
      ∃ j, j ≤ k ∧ RChain full r a b j := by
  intro k
  induction k with
  | zero =>
    intro a b hm
    cases hm
    exact ⟨0, Nat.le_refl _, RChain.nil a⟩
  | succ k ih =>
    intro a b hm
    cases hm with
    | altL h1 =>
      cases h1 with
      | concat hr hrest =>
        obtain ⟨j, hj, hc⟩ := ih _ _ hrest
        exact ⟨j + 1, by omega, RChain.cons hr hc⟩
    | altR h1 =>
      cases h1
      exact ⟨0, by omega, RChain.nil a⟩

theorem blkChain_preTokens {full : List Char} :
    ∀ {a b j : Nat},
      RChain full (.concat (plusR spaceC) (plusR nonspaceC)) a b j →
      PreTokens full a b j := by
  intro a b j hc
  induction hc with
  | nil x => exact PreTokens.nil x
  | cons hm _ ihc =>
    cases hm with
    | concat hws htok =>
      exact PreTokens.cons (plus_cls_run hws) (plus_cls_run htok) ihc

theorem repExact_cls_iff {full : List Char} {q : Char → Bool} :
    ∀ (k a b : Nat), RMatch full (repExact (.cls q) k) a b ↔
      (b = a + k ∧ ∀ i, a ≤ i → i < b →
        i < full.length ∧ q (full.getD i ' ') = true) := by
  intro k
  induction k with
  | zero =>
    intro a b
    constructor
    · intro hm
      cases hm
      exact ⟨rfl, fun i h1 h2 => absurd h2 (by omega)⟩
    · rintro ⟨hb, _⟩
      rw [hb]
      exact RMatch.eps a
  | succ k ih =>
    intro a b
    constructor
    · intro hm
      cases hm with
      | concat hr1 hr2 =>
        cases hr1 with
        | cls _ hlen hp =>
          obtain ⟨hb, hchars⟩ := (ih (a + 1) b).mp hr2
          refine ⟨by omega, fun i hi1 hi2 => ?_⟩
          rcases Nat.eq_or_lt_of_le hi1 with hia | hia
          · rw [← hia]
            exact ⟨hlen, hp⟩
          · exact hchars i hia hi2
    · rintro ⟨rfl, hchars⟩
      have ha := hchars a (Nat.le_refl _) (by omega)
      have hsum : a + (k + 1) = a + 1 + k := by omega
      rw [hsum]
      exact RMatch.concat (RMatch.cls a ha.1 ha.2)
        ((ih (a + 1) (a + 1 + k)).mpr
          ⟨rfl, fun i h1 h2 => hchars i (by omega) (by omega)⟩)

/-! ## Decomposing matches of the words-before pattern -/

theorem mem_wordB_group {inner : Regex} {full : List Char} {s e : Nat}
    {g0 g : Option Span}
    (h : (e, g) ∈ matchEnds (.concat .wordB (.group inner)) full s g0) :
    g = some (s, e) ∧ ∃ g1, (e, g1) ∈ matchEnds inner full s g0 := by
  by_cases hb : atBoundary full s = true
  · simp only [matchEnds, if_pos hb, List.flatMap_cons, List.flatMap_nil,
      List.append_nil] at h
    obtain ⟨o1, ho1, heq⟩ := List.mem_map.mp h
    obtain ⟨e1, g1⟩ := o1
    cases heq
    exact ⟨rfl, g1, ho1⟩
  · simp only [matchEnds, if_neg hb, List.flatMap_nil] at h
    simp at h

theorem mem_wordB_group_look {toks rest : Regex} {full : List Char} {s e : Nat}
    {g0 g : Option Span}
    (h : (e, g) ∈
      matchEnds (.concat .wordB (.concat (.group toks) (.look rest))) full s g0) :
    g = some (s, e) ∧ (∃ g1, (e, g1) ∈ matchEnds toks full s g0) ∧
      ∃ e2, RMatch full rest e e2 := by
  by_cases hb : atBoundary full s = true
  · simp only [matchEnds, if_pos hb, List.flatMap_cons, List.flatMap_nil,
      List.append_nil] at h
    obtain ⟨o, ho, h2⟩ := List.mem_flatMap.mp h
    obtain ⟨o1, ho1, heq⟩ := List.mem_map.mp ho
    obtain ⟨m, g1⟩ := o1
    cases heq
    split at h2
    · simp at h2
    · next hne =>
      simp only [List.mem_singleton] at h2
      have he : e = m := congrArg Prod.fst h2
      have hg : g = some (s, m) := congrArg Prod.snd h2
      have hnil : matchEnds rest full m (some (s, m)) ≠ [] := by
        intro hx
        exact hne (by rw [hx]; rfl)
      obtain ⟨o2, ho2⟩ := List.exists_mem_of_ne_nil _ hnil
      obtain ⟨e2, g2⟩ := o2
      refine ⟨by rw [hg, he], ⟨g1, by rw [he]; exact ho1⟩, e2, ?_⟩
      rw [he]
      exact matchEnds_sound rest full m (some (s, m)) e2 g2 ho2
  · simp only [matchEnds, if_neg hb, List.flatMap_nil] at h
    simp at h

theorem wordsBeforeRegex_hasGroup (p1 : Regex) (ps : List Regex) (n : Nat)
    (inc : Bool) : (wordsBeforeRegex p1 ps n inc).hasGroup = true := by
  cases inc <;> simp [wordsBeforeRegex, Regex.hasGroup]

theorem altChain_inv :
    ∀ (x : Regex) (rest : List Regex) {full : List Char} {s e : Nat},
      RMatch full (altChain x rest) s e →
      RMatch full x s e ∨ ∃ q ∈ rest, RMatch full q s e := by
  intro x rest
  induction rest generalizing x with
  | nil =>
    intro full s e h
    exact Or.inl h
  | cons a tl ih =>
    intro full s e h
    simp only [altChain] at h
    cases h with
    | altL h1 => exact Or.inl h1
    | altR h1 =>
      rcases ih a h1 with h2 | ⟨q, hq, hm⟩
      · exact Or.inr ⟨a, List.mem_cons_self _ _, h2⟩
      · exact Or.inr ⟨q, List.mem_cons_of_mem _ hq, hm⟩

/-- C4 (amended): `get_words_before_pattern` never fails, and for `n ≥ 1`
and a group-free caller pattern with top-level alternatives `p1`, `ps`,
every returned string is a slice of the subject of one of the shapes the
raw text splice allows.  With `include_match`: either one leading token
piece, `j ≤ n - 1` further (whitespace, token) blocks — so at most `n`
whitespace-delimited tokens — then whitespace and a match of the first
alternative, or (because later alternatives escape the token prefix) just
a match of one of the remaining alternatives, with no preceding tokens at
all.  Without `include_match` the captured slice is always 1..n tokens,
followed (zero-width) either by whitespace and a first-alternative match
or directly by a match of a later alternative.  In particular, for a
pattern with no top-level alternation (`ps = []`) every entry carries
between 1 and `n` tokens, so matches with zero preceding tokens are
dropped (see the counterexample). -/
theorem c4_words_before_amended :
    ∀ (text : String) (p1 : Regex) (ps : List Regex) (n : Nat) (inc : Bool),
      1 ≤ n → p1.hasGroup = false → (∀ q ∈ ps, q.hasGroup = false) →
      ∀ w ∈ get_words_before_pattern text p1 ps n inc,
        ∃ s e, w = (extract text.data s e).asString ∧
          (inc = true →
            (∃ b c d j, j + 1 ≤ n ∧
              NonspaceRun text.data s b ∧
              PreTokens text.data b c j ∧
              SpaceRun text.data c d ∧
              RMatch text.data p1 d e) ∨
            (∃ q ∈ ps, RMatch text.data q s e)) ∧
          (inc = false →
            (∃ b j, j + 1 ≤ n ∧
              NonspaceRun text.data s b ∧
              PreTokens text.data b e j) ∧
            ((∃ d e2, SpaceRun text.data e d ∧ RMatch text.data p1 d e2) ∨
              (∃ q ∈ ps, ∃ e2, RMatch text.data q e e2))) := by
  intro text p1 ps n inc hn _ _ w hw
  simp only [get_words_before_pattern, findall] at hw
  obtain ⟨t, ht, hwt⟩ := List.mem_map.mp hw
  obtain ⟨s0, e0, g0⟩ := t
  obtain ⟨hs0len, hmem⟩ := finditer_mem ht
  rw [wordsBeforeRegex_hasGroup p1 ps n inc] at hwt
  simp only [if_true] at hwt
  cases inc with
  | true =>
    simp only [wordsBeforeRegex, if_pos] at hmem
    obtain ⟨hg0, g1, hinner⟩ := mem_wordB_group hmem
    have hrm := matchEnds_sound _ text.data s0 none e0 g1 hinner
    have hweq : w = (extract text.data s0 e0).asString := by
      rw [hg0] at hwt
      exact hwt.symm
    rcases altChain_inv _ ps hrm with hfirst | ⟨q, hq, hqm⟩
    · cases hfirst with
      | concat htok hrest =>
        rename_i b
        cases hrest with
        | concat hrep hrest2 =>
          rename_i c
          cases hrest2 with
          | concat hws hpm =>
            rename_i d
            obtain ⟨j, hj, hchain⟩ := repUpTo_inv (n - 1) b c hrep
            exact ⟨s0, e0, hweq,
              fun _ => Or.inl ⟨b, c, d, j, by omega, plus_cls_run htok,
                blkChain_preTokens hchain, plus_cls_run hws, hpm⟩,
              fun hx => by simp at hx⟩
    · exact ⟨s0, e0, hweq, fun _ => Or.inr ⟨q, hq, hqm⟩,
        fun hx => by simp at hx⟩
  | false =>
    simp only [wordsBeforeRegex, if_neg] at hmem
    obtain ⟨hg0, ⟨g1, htoksmem⟩, e2, hlook⟩ := mem_wordB_group_look hmem
    have htoks := matchEnds_sound _ text.data s0 none e0 g1 htoksmem
    have hweq : w = (extract text.data s0 e0).asString := by
      rw [hg0] at hwt
      exact hwt.symm
    cases htoks with
    | concat htok hrep =>
      rename_i b
      obtain ⟨j, hj, hchain⟩ := repUpTo_inv (n - 1) b e0 hrep
      refine ⟨s0, e0, hweq, fun hx => by simp at hx,
        fun _ => ⟨⟨b, j, by omega, plus_cls_run htok,
          blkChain_preTokens hchain⟩, ?_⟩⟩
      rcases altChain_inv _ ps hlook with hfirst | ⟨q, hq, hqm⟩
      · cases hfirst with
        | concat hws hpm =>
          rename_i d
          exact Or.inl ⟨d, e2, plus_cls_run hws, hpm⟩
      · exact Or.inr ⟨q, hq, e2, hqm⟩

/-! ## String-building lemmas for the combinators -/

theorem foldl_append_acc :
    ∀ (xs : List String) (acc : String),
      List.foldl (fun r s => r ++ s) acc xs =
        acc ++ List.foldl (fun r s => r ++ s) "" xs := by
  intro xs
  induction xs with
  | nil => intro acc; exact (String.append_empty acc).symm
  | cons x xs ih =>
    intro acc
    rw [List.foldl_cons, List.foldl_cons, ih (acc ++ x), ih ("" ++ x),
      String.empty_append, String.append_assoc]

theorem join_cons (x : String) (xs : List String) :
    String.join (x :: xs) = x ++ String.join xs := by
  simp only [String.join, List.foldl_cons]
  rw [foldl_append_acc xs ("" ++ x), String.empty_append]

theorem intercalate_go_spec (d : String) :
    ∀ (ts : List String) (acc : String),
      String.intercalate.go acc d ts =
        acc ++ String.join (ts.map (fun x => d ++ x)) := by
  intro ts
  induction ts with
  | nil =>
    intro acc
    simp [String.intercalate.go, String.join, String.append_empty]
  | cons a as ih =>
    intro acc
    rw [show String.intercalate.go acc d (a :: as) =
        String.intercalate.go (acc ++ d ++ a) d as from by
      simp [String.intercalate.go]]
    rw [ih (acc ++ d ++ a), List.map_cons, join_cons]
    simp [String.append_assoc]

theorem intercalate_split (d t : String) (ts : List String) :
    String.intercalate d (t :: ts) =
      t ++ String.join (ts.map (fun x => d ++ x)) := by
  simp only [String.intercalate]
  exact intercalate_go_spec d ts t

theorem normalizeAny_ok :
    ∀ (inputs : List PatternInput) (cs : Bool),
      (∀ x ∈ inputs, x.isPat = true) →
      normalizeAny cs inputs = .ok (inputs.map (fun x =>
        if cs then x.textOf else "(?i:" ++ x.textOf ++ ")")) := by
  intro inputs cs
  induction inputs with
  | nil => intro _; rfl
  | cons x rest ih =>
    intro hval
    have hrest := ih (fun y hy => hval y (List.mem_cons_of_mem _ hy))
    cases x with
    | compiled t => simp [normalizeAny, hrest, Except.map, PatternInput.textOf]
    | raw t => simp [normalizeAny, hrest, Except.map, PatternInput.textOf]
    | other tn =>
      have hx := hval _ (List.mem_cons_self _ _)
      simp [PatternInput.isPat] at hx

theorem collectAll_ok :
    ∀ (inputs : List PatternInput),
      (∀ x ∈ inputs, x.isPat = true) →
      collectAll inputs = .ok (inputs.map PatternInput.textOf) := by
  intro inputs
  induction inputs with
  | nil => intro _; rfl
  | cons x rest ih =>
    intro hval
    have hrest := ih (fun y hy => hval y (List.mem_cons_of_mem _ hy))
    cases x with
    | compiled t => simp [collectAll, hrest, Except.map, PatternInput.textOf]
    | raw t => simp [collectAll, hrest, Except.map, PatternInput.textOf]
    | other tn =>
      have hx := hval _ (List.mem_cons_self _ _)
      simp [PatternInput.isPat] at hx

theorem map_getD_bool (f : String → Bool) (l : List String) (i : Nat)
    (h : i < l.length) : (l.map f).getD i false = f (l.getD i "") := by
  rw [List.getD_eq_getElem?_getD, List.getElem?_map,
    List.getD_eq_getElem?_getD, List.getElem?_eq_getElem h]
  rfl

/-! ## Claim theorems -/

/-- C1 (counterexample): called with zero sub-patterns,
`combine_patterns_any` does not raise — it returns the compiled pattern
`(?:)`.  This refutes the claim that the call raises
`EmptyCombinationError` instead of returning a pattern (no such exception
exists anywhere in the code). -/
theorem c1_zero_patterns_counterexample :
    combine_patterns_any [] true false = .ok ⟨"(?:)", false⟩ := rfl

/-- C1 (amended): for every flag combination, `combine_patterns_any` with
zero sub-patterns raises nothing and returns a compiled pattern whose text
is the empty non-capturing group `(?:)` (with `\b` on both sides when
`use_word_boundaries` is set). -/
theorem c1_zero_patterns_amended :
    ∀ (cs wb : Bool),
      combine_patterns_any [] cs wb =
        .ok ⟨if wb then "\\b(?:)\\b" else "(?:)", !cs⟩ := by
  intro cs wb
  cases wb <;> rfl

/-- C2: for every non-empty list of valid (pattern-or-string) inputs,
`combine_patterns_any` joins the normalized texts with `|` and wraps the
entire join in a non-capturing group `(?:...)` regardless of
`use_word_boundaries`; when `use_word_boundaries` is true, `\b` anchors
are placed on both sides outside that group. -/
theorem c2_combine_any_wrap :
    ∀ (inputs : List PatternInput) (cs wb : Bool),
      inputs ≠ [] → (∀ x ∈ inputs, x.isPat = true) →
      combine_patterns_any inputs cs wb =
        .ok ⟨(if wb then
            "\\b(?:" ++ String.intercalate "|" (inputs.map (fun x =>
              if cs then x.textOf else "(?i:" ++ x.textOf ++ ")")) ++ ")\\b"
          else
            "(?:" ++ String.intercalate "|" (inputs.map (fun x =>
              if cs then x.textOf else "(?i:" ++ x.textOf ++ ")")) ++ ")"),
          !cs⟩ := by
  intro inputs cs wb _ hval
  simp only [combine_patterns_any]
  rw [normalizeAny_ok inputs cs hval]
  rfl

/-- Witness for the C2 theorem at a concrete input. -/
theorem c2_combine_any_wrap_witness :
    (([PatternInput.raw "fox", PatternInput.raw "dog"] :
        List PatternInput) ≠ []) ∧
    (∀ x ∈ ([PatternInput.raw "fox", PatternInput.raw "dog"] :
        List PatternInput), x.isPat = true) ∧
    combine_patterns_any [PatternInput.raw "fox", PatternInput.raw "dog"]
        true true = .ok ⟨"\\b(?:fox|dog)\\b", false⟩ :=
  ⟨by decide, by decide, by
    exact c2_combine_any_wrap [PatternInput.raw "fox", PatternInput.raw "dog"]
      true true (by decide) (by decide)⟩

/-- C3: `contains_match_multi` returns results positionally aligned with
the input texts — the result list is exactly the map of `contains_match`
over the texts, so `results[i]` answers for `texts[i]` — and whenever the
number of texts is smaller than the effective worker count the sequential
branch (a list comprehension in the calling thread, not the
`multiprocessing.Pool` dispatch) produces the result. -/
theorem c3_batch_order :
    ∀ (texts : List String) (p : Regex) (nw : Option Nat) (cpu : Nat),
      contains_match_multi texts p nw cpu =
        texts.map (fun t => contains_match t p) ∧
      (∀ i, i < texts.length →
        (contains_match_multi texts p nw cpu).getD i false =
          contains_match (texts.getD i "") p) ∧
      (texts.length < nw.getD cpu →
        contains_match_multi_impl texts p nw cpu =
          .sequential (texts.map (fun t => contains_match t p))) := by
  intro texts p nw cpu
  have hmap : contains_match_multi texts p nw cpu =
      texts.map (fun t => contains_match t p) := by
    by_cases h : texts.length < nw.getD cpu <;>
      simp [contains_match_multi, contains_match_multi_impl, pool_starmap, h]
  refine ⟨hmap, ?_, ?_⟩
  · intro i hi
    rw [hmap]
    exact map_getD_bool (fun t => contains_match t p) texts i hi
  · intro h
    simp [contains_match_multi_impl, h]

/-- Witness for the C3 theorem at a concrete input. -/
theorem c3_batch_order_witness :
    (0 < (["abc 123", "def"] : List String).length) ∧
    (contains_match_multi ["abc 123", "def"] (plusR digitC) none 4).getD 0
        false = contains_match "abc 123" (plusR digitC) ∧
    ((["abc 123", "def"] : List String).length < Option.getD none 4) ∧
    contains_match_multi_impl ["abc 123", "def"] (plusR digitC) none 4 =
      .sequential ((["abc 123", "def"] : List String).map
        (fun t => contains_match t (plusR digitC))) :=
  ⟨by decide,
    (c3_batch_order ["abc 123", "def"] (plusR digitC) none 4).2.1 0 (by decide),
    by decide,
    (c3_batch_order ["abc 123", "def"] (plusR digitC) none 4).2.2 (by decide)⟩

/-- C4 (counterexample): the pattern `fox` matches `"fox jumps"`, but
`get_words_before_pattern` drops that match entirely (the built regex
demands at least one preceding token), returning `[]`; and on `"( a fox"`
with `n = 2` it returns an entry with a single preceding token even though
two whitespace-delimited tokens (`(` and `a`) precede the match — the
leading `(` offers no word boundary.  Both refute the claim as stated. -/
theorem c4_words_before_counterexample :
    (contains_match "fox jumps" (strR "fox") = true ∧
      get_words_before_pattern "fox jumps" (strR "fox") [] 3 true = []) ∧
    get_words_before_pattern "( a fox" (strR "fox") [] 2 true = ["a fox"] := by
  decide

/-- Witness for the amended C4 theorem at a concrete input, exercising the
alternation-escape branch: the caller pattern `a|b` on subject `"b"`
yields the entry `"b"` — a match of the second alternative with zero
preceding tokens, exactly as CPython behaves on the raw-spliced text. -/
theorem c4_words_before_amended_witness :
    (1 ≤ 3) ∧ ((litC 'a').hasGroup = false) ∧
    (∀ q ∈ [litC 'b'], q.hasGroup = false) ∧
    get_words_before_pattern "b" (litC 'a') [litC 'b'] 3 true = ["b"] ∧
    (∀ w ∈ get_words_before_pattern "b" (litC 'a') [litC 'b'] 3 true,
      ∃ s e, w = (extract "b".data s e).asString ∧
        (true = true →
          (∃ b c d j, j + 1 ≤ 3 ∧
            NonspaceRun "b".data s b ∧
            PreTokens "b".data b c j ∧
            SpaceRun "b".data c d ∧
            RMatch "b".data (litC 'a') d e) ∨
          (∃ q ∈ [litC 'b'], RMatch "b".data q s e)) ∧
        (true = false →
          (∃ b j, j + 1 ≤ 3 ∧
            NonspaceRun "b".data s b ∧
            PreTokens "b".data b e j) ∧
          ((∃ d e2, SpaceRun "b".data e d ∧ RMatch "b".data (litC 'a') d e2) ∨
            (∃ q ∈ [litC 'b'], ∃ e2, RMatch "b".data q e e2)))) :=
  ⟨by decide, by decide, by decide, by decide,
    c4_words_before_amended "b" (litC 'a') [litC 'b'] 3 true (by decide)
      (by decide) (by decide)⟩

/-- C5: `make_optional` is semantically idempotent.  At the text level it
wraps the input as `(?:X)?`; at the compiled level the doubly wrapped
pattern stands in the match relation for exactly the same spans as the
singly wrapped one, and consequently `contains_match` and `is_match`
cannot tell the two apart on any text. -/
theorem c5_make_optional_idempotent :
    (∀ (t : String), make_optional (.raw t) = .ok ⟨"(?:" ++ t ++ ")?", false⟩) ∧
    (∀ (r : Regex) (full : List Char) (s e : Nat),
      RMatch full (make_optional_ast (make_optional_ast r)) s e ↔
        RMatch full (make_optional_ast r) s e) ∧
    (∀ (text : String) (r : Regex),
      contains_match text (make_optional_ast (make_optional_ast r)) =
        contains_match text (make_optional_ast r)) ∧
    (∀ (text : String) (r : Regex),
      is_match text (make_optional_ast (make_optional_ast r)) =
        is_match text (make_optional_ast r)) := by
  have hiff : ∀ (r : Regex) (full : List Char) (s e : Nat),
      RMatch full (make_optional_ast (make_optional_ast r)) s e ↔
        RMatch full (make_optional_ast r) s e := by
    intro r full s e
    constructor
    · intro h
      cases h with
      | altL h1 => exact h1
      | altR h1 =>
        cases h1
        exact RMatch.altR (RMatch.eps _)
    · intro h
      cases h with
      | altL h1 => exact RMatch.altL (RMatch.altL h1)
      | altR h1 => exact RMatch.altL (RMatch.altR h1)
  refine ⟨fun t => rfl, hiff, ?_, ?_⟩
  · intro text r
    apply Bool.eq_iff_iff.mpr
    rw [contains_match_iff, contains_match_iff]
    constructor
    · rintro ⟨s, e, hs, hm⟩
      exact ⟨s, e, hs, (hiff r text.data s e).mp hm⟩
    · rintro ⟨s, e, hs, hm⟩
      exact ⟨s, e, hs, (hiff r text.data s e).mpr hm⟩
  · intro text r
    apply Bool.eq_iff_iff.mpr
    rw [is_match_iff, is_match_iff]
    constructor
    · rintro ⟨e, he, hm⟩
      exact ⟨e, he, (hiff r text.data 0 e).mp hm⟩
    · rintro ⟨e, he, hm⟩
      exact ⟨e, he, (hiff r text.data 0 e).mpr hm⟩

/-- C6 (code bug): evaluating `extract_between_patterns` on the
documented example.  With `include_matches = True` the code builds
`start(.*?end)`, whose group excludes the start delimiter: it returns
`["world]"]`, while the function's own docstring (lines 126-127) promises
`['[world]']`.  With `include_matches = False` it returns `["world"]` as
documented. -/
theorem c6_extract_between_eval :
    extract_between_patterns "hello [world]!" (litC '[') (litC ']') true =
      ["world]"] ∧
    extract_between_patterns "hello [world]!" (litC '[') (litC ']') false =
      ["world"] := by
  decide

/-- C7: for every non-empty list of valid inputs, `combine_patterns_all`
concatenates the texts unchanged with the delimiter (default empty)
glued only in front of each fragment after the first — so never leading,
never trailing, and no grouping is added around any sub-pattern. -/
theorem c7_combine_all_between :
    ∀ (t0 : PatternInput) (rest : List PatternInput) (d : Option String)
      (cs : Bool),
      (∀ x ∈ t0 :: rest, x.isPat = true) →
      combine_patterns_all (t0 :: rest) d cs =
        .ok ⟨t0.textOf ++
            String.join (rest.map (fun x => d.getD "" ++ x.textOf)),
          !cs⟩ := by
  intro t0 rest d cs hval
  simp only [combine_patterns_all]
  rw [collectAll_ok _ hval]
  simp only [Except.map, List.map_cons]
  rw [intercalate_split, List.map_map]
  rfl

/-- Witness for the C7 theorem at a concrete input. -/
theorem c7_combine_all_between_witness :
    (∀ x ∈ ([PatternInput.raw "fox", PatternInput.raw "dog"] :
        List PatternInput), x.isPat = true) ∧
    combine_patterns_all [PatternInput.raw "fox", PatternInput.raw "dog"]
        (some "\\s+") true = .ok ⟨"fox\\s+dog", false⟩ :=
  ⟨by decide, by
    exact c7_combine_all_between (PatternInput.raw "fox")
      [PatternInput.raw "dog"] (some "\\s+") true (by decide)⟩

/-- C8 (counterexample): `n_digits (-1)` does not raise — no
`InvalidArgumentError` exists in the code — it returns the text `\d{-1}`
(a malformed quantifier the engine reads literally). -/
theorem c8_negative_counterexample : n_digits (-1) = "\\d\x7b-1\x7d" := rfl

/-- C8 (amended): `n_digits` is total — for every integer `n` it returns
the text `\d{n}` and never raises; for `n ≥ 0` the compiled fragment
matches exactly `n` digit characters: it relates positions `a` and
`a + n`, with every character in between a digit. -/
theorem c8_n_digits_amended :
    (∀ n : Int, n_digits n = "\\d\x7b" ++ toString n ++ "\x7d") ∧
    (∀ (k : Nat) (full : List Char) (a b : Nat),
      RMatch full (nDigitsR k) a b ↔
        (b = a + k ∧ ∀ i, a ≤ i → i < b →
          i < full.length ∧ isDigitC (full.getD i ' ') = true)) :=
  ⟨fun _ => rfl, fun k full a b => repExact_cls_iff k a b⟩

/-- C9: `is_match` is true exactly when the pattern matches starting at
position 0 — prefix semantics: some end position `e ≤ length` exists with
the pattern matching the span `[0, e)`; the whole string need not be
consumed. -/
theorem c9_full_match_prefix :
    ∀ (text : String) (r : Regex),
      is_match text r = true ↔
        ∃ e, e ≤ text.data.length ∧ RMatch text.data r 0 e :=
  fun text r => is_match_iff text r

/-- C10: `count_matches` equals the length of the list `get_matches`
returns (both walk the same `finditer` scan), and `contains_match` is true
exactly when that count is at least 1. -/
theorem c10_count_contains :
    ∀ (text : String) (r : Regex),
      count_matches text r = (get_matches text r).length ∧
      (contains_match text r = true ↔ 1 ≤ count_matches text r) := by
  intro text r
  refine ⟨?_, ?_⟩
  · simp [count_matches, get_matches, findall]
  · simp only [count_matches, finditer, contains_match]
    rw [show text.data.length + 2 = text.data.length + 1 + 1 from rfl]
    cases hse : searchFrom r text.data 0 with
    | none => simp [scanAux, hse]
    | some res =>
      obtain ⟨s, e, g⟩ := res
      simp [scanAux, hse]

end RegexHelper
